import Mathlib

/-!
# A verification model of the graphene-django-optimizer core

The repository ships only its test suite under `src/` (tests/schema.py,
tests/models.py, tests/test_relay.py); the optimizer package itself
(`graphene_django_optimizer`) is not present.  The definitions below are
therefore modelled from the specification (spec.md sections 3 to 7), which
describes the data model (SelectionNode, FieldDescriptor, Hint, Plan), the
Selection Walker, the Plan Accumulator merge semantics, the Plan Applier
and the error-handling contract.  Where the tests pin concrete behaviour
(tests/models.py relations, tests/schema.py hints), the concrete instances
used by witnesses mirror them.

String helpers: `String.lt` in this toolchain does not reduce inside the
kernel, so the development carries its own character-list order `strLtB`,
used only to keep the prefetch entry list of a `Plan` in a canonical order.
-/

/-! ## Strings: a computable strict order -/
/-- Strict lexicographic order on character lists, by code point. -/
def charListLt : List Char → List Char → Bool
  | [], [] => false
  | [], _ :: _ => true
  | _ :: _, [] => false
  | a :: as, b :: bs => a < b || (a = b && charListLt as bs)

/-- Strict order on strings (lexicographic on the underlying characters). -/
def strLtB (a b : String) : Bool := charListLt a.data b.data

/-! ## Plan keys: (relation path, optional rename) -/
/-- Strict order on optional renames: `none` sorts first. -/
def optLt : Option String → Option String → Bool
  | none, none => false
  | none, some _ => true
  | some _, none => false
  | some a, some b => strLtB a b

/-- A prefetch entry is keyed by `(relation path, optional rename)`
(spec 4.4: prefetch sets union keyed by (path, rename)). -/
abbrev PKey := String × Option String

/-- Strict order on prefetch keys, lexicographic on path then rename. -/
def keyLt (a b : PKey) : Bool :=
  strLtB a.1 b.1 || (a.1 = b.1 && optLt a.2 b.2)

/-! ## The Plan accumulator

Modelled from the spec: section 3, "Plan": accumulator state with
`select : set of relation-path`, `prefetch : set of (relation-path, nested
Plan, optional rename, optional filter)`, `only : set of column-name`,
`aborted : bool`.  The prefetch set is represented as a list of entries
`((path, rename), filter, nested plan)` kept in canonical `keyLt` order by
the merge operation of section 4.4 (prefetch sets union keyed by
`(path, rename)`).  The optional filtered sub-query is abstracted as an
opaque string tag. -/
inductive Plan : Type where
  | mk : (select : Finset String) →
         (prefetch : List (PKey × Option String × Plan)) →
         (only : Finset String) →
         (aborted : Bool) → Plan

/-- One prefetch entry: key (path, rename), optional filter tag, nested plan. -/
abbrev PEntry := PKey × Option String × Plan

def Plan.select : Plan → Finset String
  | .mk s _ _ _ => s

def Plan.prefetch : Plan → List PEntry
  | .mk _ pf _ _ => pf

def Plan.only : Plan → Finset String
  | .mk _ _ o _ => o

def Plan.aborted : Plan → Bool
  | .mk _ _ _ a => a

/-- The empty plan: no contribution. -/
def Plan.empty : Plan := .mk ∅ [] ∅ false

/-- The pure abort contribution (spec 4.3.f): no columns, no relations,
`aborted` set. -/
def Plan.abortMark : Plan := .mk ∅ [] ∅ true

/-- Combining the optional filter tags of two prefetch entries that share a
key.  Symmetric and idempotent; a present filter wins over an absent one. -/
def mergeFilter : Option String → Option String → Option String
  | none, f => f
  | f, none => f
  | some a, some b => some (if strLtB a b then a else b)

/-! ## Plan merge (spec 4.4)

`select` sets union; `prefetch` sets union keyed by `(path, rename)`, with
colliding contributions merged recursively; `only` sets union; `aborted`
OR'd.  Entry lists are interleaved in `keyLt` order, so the result does not
depend on the argument order. -/
mutual
def Plan.merge : Plan → Plan → Plan
  | .mk s1 pf1 o1 a1, .mk s2 pf2 o2 a2 =>
      .mk (s1 ∪ s2) (Plan.mergePF pf1 pf2) (o1 ∪ o2) (a1 || a2)

def Plan.mergePF : List PEntry → List PEntry → List PEntry
  | [], l2 => l2
  | e :: t, [] => e :: t
  | (k1, f1, p1) :: t1, (k2, f2, p2) :: t2 =>
      if keyLt k1 k2 then (k1, f1, p1) :: Plan.mergePF t1 ((k2, f2, p2) :: t2)
      else if keyLt k2 k1 then (k2, f2, p2) :: Plan.mergePF ((k1, f1, p1) :: t1) t2
      else (k1, mergeFilter f1 f2, (p1.merge p2)) :: Plan.mergePF t1 t2
end

/-- The keys present in a prefetch entry list. -/
def entryKeys (l : List PEntry) : Finset PKey := (l.map (fun e => e.1)).toFinset

/-! ## Selection trees

Modelled from the spec: section 3, "SelectionNode": a field name as
requested, its declared arguments (ordered name-to-value mapping, values
abstracted as strings), and its child SelectionNodes.  The possible
concrete result types travel as a separate argument of the walker
(spec 4.3: `walk(node, concrete_types)`). -/
inductive SelectionNode : Type where
  | mk : (name : String) → (args : List (String × String)) →
         (children : List SelectionNode) → SelectionNode

def SelectionNode.name : SelectionNode → String
  | .mk nm _ _ => nm

def SelectionNode.args : SelectionNode → List (String × String)
  | .mk _ a _ => a

def SelectionNode.children : SelectionNode → List SelectionNode
  | .mk _ _ cs => cs

/-- Find a direct child of a selection node by field name. -/
def findChild (nm : String) (n : SelectionNode) : Option SelectionNode :=
  n.children.find? (fun c => c.name = nm)

/-- Modelled from the spec: section 4.3 step 1 and section 2
(Pagination/Connection Unwrapper).  A node is connection-shaped when its
selection has an `edges` child which itself has a `node` child; the real
data selection is that inner node, and all other (metadata-only) siblings
such as page-info are ignored. -/
def connInner (n : SelectionNode) : Option SelectionNode :=
  match findChild "edges" n with
  | none => none
  | some e => findChild "node" e

/-! ## Schema metadata

Modelled from the spec: section 3, "FieldDescriptor", and section 4.1
(Schema Introspector): per concrete type and field name, the field kind
(column, to-one relation, to-many relation, computed), nullability, and for
relations the target concrete type and the name of the
foreign-key/back-reference column that implements the relation.
`describe` answering `none` means the field has no backing column or
relation (treated as computed/unknown, spec 4.1 and section 7). -/
inductive FieldKind : Type where
  | column : FieldKind
  | toOne : FieldKind
  | toMany : FieldKind
  | computed : FieldKind
deriving DecidableEq

structure FieldDescriptor where
  kind : FieldKind
  nullable : Bool
  target : Option String
  fkCol : Option String
deriving DecidableEq

/-- Schema Introspector interface (spec 4.1, 6): `describe` plus the
primary-key column name per type. -/
structure Schema where
  describe : String → String → Option FieldDescriptor
  pk : String → String

/-- The list of candidate concrete types a relation descriptor recurses
into (spec 4.3.d-e: the relation's target type). -/
def targetList (d : FieldDescriptor) : List String :=
  match d.target with
  | some u => [u]
  | none => []

/-! ## Hints

Modelled from the spec: section 3, "Hint", and section 6: an optional
`model_field` override, an extra `only` column list, a static or dynamic
`select_related` contribution, a static or dynamic `prefetch_related`
contribution (the dynamic forms receive the current node's arguments and
the identity field name, and may fail: a raising hint function is modelled
as returning `Except.error`), and a flag disabling optimization for the
field.  A dynamic prefetch contribution returns
`(path, rename, filter tag, nested plan)` (spec 4.2). -/
inductive SelContrib : Type where
  | path : String → SelContrib
  | fn : (List (String × String) → String → Except String String) → SelContrib

inductive PrefContrib : Type where
  | path : String → PrefContrib
  | fn : (List (String × String) → String →
          Except String (String × Option String × Option String × Plan)) → PrefContrib

structure Hint where
  modelField : Option String
  addOnly : List String
  selRel : Option SelContrib
  prefRel : Option PrefContrib
  disabled : Bool

/-- The walker configuration: the schema snapshot and the process-wide
Hint Registry (spec 4.2), keyed by (type, field name). -/
structure WalkCfg where
  schema : Schema
  hints : List ((String × String) × Hint)

/-- Hint Registry lookup (spec 4.2). -/
def lookupHint (cfg : WalkCfg) (t fname : String) : Option Hint :=
  match cfg.hints.find? (fun e => e.1 = (t, fname)) with
  | none => none
  | some e => some e.2

/-- Identity-field handling (spec 4.3 step 4): the identity field resolves
to the backing column supplied by its hint, defaulting to the primary-key
column. -/
def idBacking (cfg : WalkCfg) (t : String) : String :=
  match lookupHint cfg t "id" with
  | some h =>
      match h.modelField with
      | some c => c
      | none => cfg.schema.pk t
  | none => cfg.schema.pk t

/-- Whether a requested field is resolvable on a concrete type: it is the
identity field, or has a hint, or the Schema Introspector knows it
(spec 4.3 step 3 and section 7: a field absent on some concrete types is
skipped for those types; only absent-on-all counts as unknown). -/
def resolvesOn (cfg : WalkCfg) (f : SelectionNode) (t : String) : Bool :=
  f.name = "id" || (lookupHint cfg t f.name).isSome ||
    (cfg.schema.describe t f.name).isSome

/-- Re-root a child plan of a to-one relation under the relation path
(spec 4.3.d: merge the child's results into the same plan under the
relation path prefix). -/
def Plan.nestUnder (pre : String) : Plan → Plan
  | .mk s pf o a =>
      .mk (s.image (fun x => pre ++ "." ++ x))
        (pf.map (fun e => ((pre ++ "." ++ e.1.1, e.1.2), e.2)))
        (o.image (fun x => pre ++ "." ++ x)) a

/-- Contribution of a hint (spec 4.3.g): extra `only` columns, a static or
dynamic select path, a static or dynamic prefetch relation spec.  Dynamic
functions receive `(node arguments, identity field name)` and their errors
propagate (section 7). -/
def hintContrib (cfg : WalkCfg) (t : String) (h : Hint) (f : SelectionNode) :
    Except String Plan := do
  let sel ← match h.selRel with
    | none => Except.ok (∅ : Finset String)
    | some (SelContrib.path p) => Except.ok ({p} : Finset String)
    | some (SelContrib.fn g) => do
        let p ← g f.args (idBacking cfg t)
        Except.ok ({p} : Finset String)
  let pf ← match h.prefRel with
    | none => Except.ok ([] : List PEntry)
    | some (PrefContrib.path p) => Except.ok [((p, none), none, Plan.empty)]
    | some (PrefContrib.fn g) => do
        let r ← g f.args (idBacking cfg t)
        Except.ok [((r.1, r.2.1), r.2.2.1, r.2.2.2)]
  Except.ok (Plan.mk sel pf h.addOnly.toFinset false)

/-- Ensure a batch-fetched nested plan that narrows its columns still keeps
the foreign-key/back-reference column linking rows to their parent
(tests/test_relay.py: prefetch_related should include parent key id in
only).  A nested plan with an empty `only` is not narrowed, so nothing is
added (spec 4.3 edge case: empty nested plan fetches full rows). -/
def withFk (d : FieldDescriptor) (child : Plan) : Plan :=
  match d.fkCol with
  | none => child
  | some c =>
      if child.only = ∅ then child
      else Plan.mk child.select child.prefetch (insert c child.only) child.aborted

/-- Schema-introspected handling of one field on one concrete type
(spec 4.3 steps b-f), parameterized by the recursive walk `rec`.
`hinted` records whether a hint was present: a computed/unknown field with
no hint aborts column narrowing for this subplan (step f); with a hint it
contributes nothing further (step a). -/
def introCase (rec : SelectionNode → List String → Except String Plan)
    (cfg : WalkCfg) (t nm : String) (f : SelectionNode) (hinted : Bool) :
    Except String Plan :=
  match cfg.schema.describe t nm with
  | some d =>
      match d.kind with
      | FieldKind.column => Except.ok (Plan.mk ∅ [] {nm} false)
      | FieldKind.toOne => do
          let child ← rec f (targetList d)
          Except.ok ((Plan.mk {nm} [] ∅ false).merge (child.nestUnder nm))
      | FieldKind.toMany => do
          let child ← rec f (targetList d)
          Except.ok (Plan.mk ∅ [((nm, none), none, withFk d child)] ∅ false)
      | FieldKind.computed =>
          Except.ok (if hinted then Plan.empty else Plan.abortMark)
  | none => Except.ok (if hinted then Plan.empty else Plan.abortMark)

/-- One field on one concrete type (spec 4.3 step 2): identity fields
resolve to their backing column; a hinted field merges the hint
contribution with the introspected handling of the (possibly substituted)
field name; a hint that disables optimization aborts this subplan. -/
def fieldOnType (rec : SelectionNode → List String → Except String Plan)
    (cfg : WalkCfg) (f : SelectionNode) (t : String) : Except String Plan :=
  if f.name = "id" then Except.ok (Plan.mk ∅ [] {idBacking cfg t} false)
  else
    match lookupHint cfg t f.name with
    | some h =>
        if h.disabled then Except.ok Plan.abortMark
        else do
          let hp ← hintContrib cfg t h f
          let nm := match h.modelField with
            | some m => m
            | none => f.name
          let ip ← introCase rec cfg t nm f true
          Except.ok (hp.merge ip)
    | none => introCase rec cfg t f.name f false

/-- Merge the contributions of one field over a list of concrete types
(spec 4.3 step 3: the union's plan is the union of all type-specific
contributions). -/
def fieldTypesAux (rec : SelectionNode → List String → Except String Plan)
    (cfg : WalkCfg) (f : SelectionNode) : List String → Except String Plan
  | [] => Except.ok Plan.empty
  | t :: ts => do
      let c ← fieldOnType rec cfg f t
      let r ← fieldTypesAux rec cfg f ts
      Except.ok (c.merge r)

/-- One requested field over all candidate concrete types: types on which
the field is unresolvable are skipped; if it resolves on no type at all it
is unknown, treated as computed with no hint, aborting column narrowing
for this subplan (spec 4.3 step 3, section 7). -/
def fieldStep (rec : SelectionNode → List String → Except String Plan)
    (cfg : WalkCfg) (types : List String) (f : SelectionNode) : Except String Plan :=
  match types.filter (resolvesOn cfg f) with
  | [] => Except.ok Plan.abortMark
  | t :: ts => fieldTypesAux rec cfg f (t :: ts)

/-- Merge the contributions of all requested fields of a node. -/
def walkFieldsAux (rec : SelectionNode → List String → Except String Plan)
    (cfg : WalkCfg) (types : List String) : List SelectionNode → Except String Plan
  | [] => Except.ok Plan.empty
  | f :: rest => do
      let c ← fieldStep rec cfg types f
      let r ← walkFieldsAux rec cfg types rest
      Except.ok (c.merge r)

/-- The Selection Walker (spec 4.3): unwrap connection-shaped nodes, then
fold every requested field over every candidate concrete type into one
plan.  The fuel bounds the recursion depth; it is irrelevant as soon as it
is at least the node size (`walk_fuel` below), and exhausted fuel yields
the empty plan. -/
def walk (cfg : WalkCfg) : Nat → SelectionNode → List String → Except String Plan
  | 0, _, _ => Except.ok Plan.empty
  | fuel + 1, n, types =>
      match connInner n with
      | some inner => walk cfg fuel inner types
      | none => walkFieldsAux (fun m ts => walk cfg fuel m ts) cfg types n.children

/-! ## Queries and the Plan Applier

Modelled from the spec: section 1 (out of scope storage driver interface:
apply-select, apply-prefetch, apply-only) and section 4.5 (Plan Applier).
A query records an opaque base (the caller's filters), the applied select
paths, the applied prefetch entries (each carrying its own applied
sub-query), and the applied column projection; empty `onlyCols` means no
projection. -/
inductive Query : Type where
  | mk : (base : String) → (selectRelated : Finset String) →
         (prefetchRelated : List (PKey × Query)) →
         (onlyCols : Finset String) → Query

def Query.base : Query → String
  | .mk b _ _ _ => b

def Query.selectRelated : Query → Finset String
  | .mk _ s _ _ => s

def Query.prefetchRelated : Query → List (PKey × Query)
  | .mk _ _ pf _ => pf

def Query.onlyCols : Query → Finset String
  | .mk _ _ _ o => o

/-- The base query a nested prefetch plan is applied to: the related
model's base query set, or the hint-supplied filtered sub-query
(spec 4.5: the prefetch primitive receives the nested Plan's own applied
sub-query). -/
def filterBase : Option String → Query
  | none => Query.mk "" ∅ [] ∅
  | some tag => Query.mk tag ∅ [] ∅

/-- The Plan Applier (spec 4.5): applies `select` paths, applies each
prefetch entry with the nested plan's own applied sub-query and the
rename, and applies `only` only when `aborted` is false and `only` is
non-empty.  All applications merge with pre-existing query state rather
than replace it. -/
def applyPlan : Query → Plan → Query
  | q, Plan.mk s pf o a =>
      Query.mk q.base (q.selectRelated ∪ s)
        (q.prefetchRelated ++ pf.attach.map (fun e =>
          (e.1.1, applyPlan (filterBase e.1.2.1) e.1.2.2)))
        (if a = true ∨ o = ∅ then q.onlyCols else q.onlyCols ∪ o)
termination_by _ p => sizeOf p
decreasing_by
  obtain ⟨⟨k, flt, pl⟩, hmem⟩ := e
  have h1 : sizeOf (k, flt, pl) < sizeOf pf := List.sizeOf_lt_of_mem hmem
  simp only [Prod.mk.sizeOf_spec] at h1
  simp only [Plan.mk.sizeOf_spec]
  omega

/-- The single entry point (spec 6):
`optimize(base_query, selection_tree) -> optimized_query`, with the walk
fuel made explicit (any fuel at least the tree size gives the same
answer). -/
def optimize (cfg : WalkCfg) (fuel : Nat) (q : Query) (n : SelectionNode)
    (types : List String) : Except String Query :=
  (walk cfg fuel n types).map (fun p => applyPlan q p)

/-! ## Concrete instances mirroring the test schema

From src/tests/models.py: `Item` has a primary key `id`, a `uuid` column, a
`name` column, a to-one `parent` relation to `Item` implemented by the
`parent_id` column, and the reverse to-many `children` relation (also
implemented by `parent_id`).  From src/tests/schema.py: `filtered_children`
carries a dynamic prefetch hint producing the physical `children` relation
renamed to `gql_filtered_children_` plus the `name` argument, with a
filtered sub-query; the nested plan mirrors the nested optimize of the
`{id}` selection with the parent key column kept. -/
def itemSchema : Schema :=
  Schema.mk
    (fun t fname =>
      if t = "Item" then
        if fname = "name" then some (FieldDescriptor.mk FieldKind.column false none none)
        else if fname = "uuid" then some (FieldDescriptor.mk FieldKind.column false none none)
        else if fname = "parent" then
          some (FieldDescriptor.mk FieldKind.toOne true (some "Item") (some "parent_id"))
        else if fname = "children" then
          some (FieldDescriptor.mk FieldKind.toMany false (some "Item") (some "parent_id"))
        else none
      else none)
    (fun _ => "id")

/-- A selection leaf: a field requested with no arguments and no
sub-selection. -/
def leaf (nm : String) : SelectionNode := SelectionNode.mk nm [] []

/-- The dynamic prefetch hint of `filtered_children`
(src/tests/schema.py lines 47-57): produce the physical `children`
relation, renamed per the `name` argument, with a filtered sub-query; the
nested plan keeps the requested `id` plus the parent key column. -/
def filteredChildrenHint : Hint :=
  Hint.mk none [] none
    (some (PrefContrib.fn (fun args _ =>
      match args.find? (fun a => a.1 = "name") with
      | some a =>
          Except.ok ("children", some ("gql_filtered_children_" ++ a.2),
            some ("name=" ++ a.2), Plan.mk ∅ [] {"id", "parent_id"} false)
      | none => Except.error "filtered_children requires a name argument")))
    false

/-- Walker configuration with no hints registered. -/
def plainCfg : WalkCfg := WalkCfg.mk itemSchema []

/-- Walker configuration with the `filtered_children` dynamic hint. -/
def testCfg : WalkCfg :=
  WalkCfg.mk itemSchema [(("Item", "filteredChildren"), filteredChildrenHint)]

/-- Walker configuration where the identity field of `Item` is backed by
the non-primary-key `uuid` column
(tests/test_relay.py: QueryOptimizer(info, id_field=uuid)). -/
def uuidCfg : WalkCfg :=
  WalkCfg.mk itemSchema [(("Item", "id"), Hint.mk (some "uuid") [] none none false)]

/-- An opaque base query with no select/prefetch/only state. -/
def baseQuery : Query := Query.mk "base" ∅ [] ∅

/-- Storage-driver select primitive (spec 1, 6): record one more join path. -/
def applySelect (q : Query) (path : String) : Query :=
  Query.mk q.base (insert path q.selectRelated) q.prefetchRelated q.onlyCols

/-- Storage-driver only primitive (spec 1, 6): merge a column projection. -/
def applyOnly (q : Query) (cols : Finset String) : Query :=
  Query.mk q.base q.selectRelated q.prefetchRelated (q.onlyCols ∪ cols)

/-! ## Concrete selection trees used by the scenarios -/
/-- The selection tree of spec section 8, first scenario. -/
def c1tree : SelectionNode :=
  SelectionNode.mk "q" [] [leaf "id", leaf "name", SelectionNode.mk "parent" [] [leaf "id"]]

/-- The selection tree of spec section 8, second scenario. -/
def c2tree : SelectionNode :=
  SelectionNode.mk "q" [] [leaf "id", SelectionNode.mk "children" [] [leaf "id", leaf "name"]]

/-- A connection-shaped wrapper: edges/node around the real selection,
with a metadata page-info sibling. -/
def connWrap (cs : List SelectionNode) : SelectionNode :=
  SelectionNode.mk "relayItems" []
    [SelectionNode.mk "edges" [] [SelectionNode.mk "node" [] cs],
     SelectionNode.mk "pageInfo" [] [leaf "hasNextPage"]]

/-- The test query of tests/test_relay.py lines 260-303: `id`, `name`,
plain `children{id,name}` and `filteredChildren(name: v){id}`. -/
def c6tree (v : String) : SelectionNode :=
  SelectionNode.mk "q" []
    [leaf "id", leaf "name",
     SelectionNode.mk "children" [] [leaf "id", leaf "name"],
     SelectionNode.mk "filteredChildren" [("name", v)] [leaf "id"]]

/-! ## C8: the optimizer raises nothing of its own -/
/-- A static or absent select hint never fails; a dynamic one never fails
when its function answers on every input. -/
def SelNoThrow : Option SelContrib → Prop
  | some (SelContrib.fn g) => ∀ args idf, ∃ v, g args idf = Except.ok v
  | _ => True

/-- Likewise for prefetch hints. -/
def PrefNoThrow : Option PrefContrib → Prop
  | some (PrefContrib.fn g) => ∀ args idf, ∃ v, g args idf = Except.ok v
  | _ => True

/-- Every dynamic hint function registered in the Hint Registry answers on
every input (no caller-authored hint raises). -/
def RegistryNoThrow (cfg : WalkCfg) : Prop :=
  ∀ e ∈ cfg.hints, SelNoThrow e.2.selRel ∧ PrefNoThrow e.2.prefRel

/-- A configuration whose only hint carries a dynamic prefetch function
that always raises: used to observe that hint errors propagate uncaught. -/
def badCfg : WalkCfg :=
  WalkCfg.mk itemSchema
    [(("Item", "boom"),
      Hint.mk none [] none
        (some (PrefContrib.fn (fun _ _ => Except.error "hint failure"))) false)]

theorem charListLt_irrefl : ∀ l : List Char, charListLt l l = false
  | [] => rfl
  | a :: as => by
      simp [charListLt, charListLt_irrefl as]

theorem charListLt_asymm : ∀ l1 l2 : List Char,
    charListLt l1 l2 = true → charListLt l2 l1 = false
  | [], [], h => by simp [charListLt] at h
  | [], _ :: _, _ => rfl
  | _ :: _, [], h => by simp [charListLt] at h
  | a :: as, b :: bs, h => by
      simp only [charListLt, Bool.or_eq_true, Bool.and_eq_true, decide_eq_true_eq] at h
      simp only [charListLt, Bool.or_eq_false_iff, Bool.and_eq_false_iff]
      rcases h with h | ⟨hab, h⟩
      · exact ⟨by simpa using lt_asymm h, Or.inl (by simpa using ne_of_gt h)⟩
      · subst hab
        exact ⟨by simp, Or.inr (charListLt_asymm as bs h)⟩

theorem charListLt_conn : ∀ l1 l2 : List Char,
    charListLt l1 l2 = false → charListLt l2 l1 = false → l1 = l2
  | [], [], _, _ => rfl
  | [], _ :: _, h, _ => by simp [charListLt] at h
  | _ :: _, [], _, h => by simp [charListLt] at h
  | a :: as, b :: bs, h1, h2 => by
      simp only [charListLt, Bool.or_eq_false_iff, Bool.and_eq_false_iff,
        decide_eq_false_iff_not] at h1 h2
      obtain ⟨hab, h1r⟩ := h1
      obtain ⟨hba, h2r⟩ := h2
      have heq : a = b := by
        rcases lt_trichotomy a b with h | h | h
        · exact absurd h hab
        · exact h
        · exact absurd h hba
      subst heq
      rcases h1r with h1r | h1r
      · simp at h1r
      rcases h2r with h2r | h2r
      · simp at h2r
      rw [charListLt_conn as bs h1r h2r]

theorem strLtB_irrefl (s : String) : strLtB s s = false :=
  charListLt_irrefl s.data

theorem strLtB_asymm {a b : String} (h : strLtB a b = true) : strLtB b a = false :=
  charListLt_asymm a.data b.data h

theorem strLtB_conn {a b : String} (h1 : strLtB a b = false) (h2 : strLtB b a = false) :
    a = b := by
  have h := charListLt_conn a.data b.data h1 h2
  cases a
  cases b
  exact congrArg String.mk h

theorem optLt_irrefl : ∀ o : Option String, optLt o o = false
  | none => rfl
  | some s => strLtB_irrefl s

theorem optLt_asymm : ∀ {a b : Option String}, optLt a b = true → optLt b a = false
  | none, none, h => by simp [optLt] at h
  | none, some _, _ => rfl
  | some _, none, h => by simp [optLt] at h
  | some a, some b, h => strLtB_asymm h

theorem optLt_conn : ∀ {a b : Option String},
    optLt a b = false → optLt b a = false → a = b
  | none, none, _, _ => rfl
  | none, some _, h, _ => by simp [optLt] at h
  | some _, none, _, h => by simp [optLt] at h
  | some a, some b, h1, h2 => by rw [strLtB_conn h1 h2]

theorem keyLt_irrefl (k : PKey) : keyLt k k = false := by
  simp [keyLt, strLtB_irrefl, optLt_irrefl]

theorem keyLt_asymm {a b : PKey} (h : keyLt a b = true) : keyLt b a = false := by
  obtain ⟨a1, a2⟩ := a
  obtain ⟨b1, b2⟩ := b
  simp only [keyLt, Bool.or_eq_true, Bool.and_eq_true, decide_eq_true_eq] at h
  simp only [keyLt, Bool.or_eq_false_iff, Bool.and_eq_false_iff, decide_eq_false_iff_not]
  rcases h with h | ⟨hab, h⟩
  · refine ⟨strLtB_asymm h, Or.inl ?_⟩
    intro he
    rw [he] at h
    simp [strLtB_irrefl] at h
  · subst hab
    exact ⟨strLtB_irrefl _, Or.inr (optLt_asymm h)⟩

theorem keyLt_conn {a b : PKey} (h1 : keyLt a b = false) (h2 : keyLt b a = false) :
    a = b := by
  simp only [keyLt, Bool.or_eq_false_iff, Bool.and_eq_false_iff,
    decide_eq_false_iff_not] at h1 h2
  obtain ⟨hab, h1r⟩ := h1
  obtain ⟨hba, h2r⟩ := h2
  have hp : a.1 = b.1 := strLtB_conn hab hba
  rcases h1r with h1r | h1r
  · exact absurd hp h1r
  rcases h2r with h2r | h2r
  · exact absurd hp.symm h2r
  have ho : a.2 = b.2 := optLt_conn h1r h2r
  exact Prod.ext hp ho

@[simp] theorem Plan.select_mk (s pf o a) : (Plan.mk s pf o a).select = s := rfl

@[simp] theorem Plan.prefetch_mk (s pf o a) : (Plan.mk s pf o a).prefetch = pf := rfl

@[simp] theorem Plan.only_mk (s pf o a) : (Plan.mk s pf o a).only = o := rfl

@[simp] theorem Plan.aborted_mk (s pf o a) : (Plan.mk s pf o a).aborted = a := rfl

theorem mergeFilter_comm : ∀ f1 f2, mergeFilter f1 f2 = mergeFilter f2 f1
  | none, none => rfl
  | none, some _ => rfl
  | some _, none => rfl
  | some a, some b => by
      simp only [mergeFilter, Option.some.injEq]
      rcases hab : strLtB a b with _ | _
      · rcases hba : strLtB b a with _ | _
        · rw [strLtB_conn hab hba]
        · simp
      · rw [strLtB_asymm hab]
        simp

theorem mergeFilter_idem : ∀ f, mergeFilter f f = f
  | none => rfl
  | some a => by simp [mergeFilter, strLtB_irrefl]

@[simp] theorem Plan.merge_mk (s1 pf1 o1 a1 s2 pf2 o2 a2) :
    Plan.merge (.mk s1 pf1 o1 a1) (.mk s2 pf2 o2 a2) =
      .mk (s1 ∪ s2) (Plan.mergePF pf1 pf2) (o1 ∪ o2) (a1 || a2) := by
  rw [Plan.merge]

@[simp] theorem Plan.mergePF_nil_left (l : List PEntry) : Plan.mergePF [] l = l := by
  rw [Plan.mergePF]

@[simp] theorem Plan.mergePF_nil_right (l : List PEntry) : Plan.mergePF l [] = l := by
  cases l with
  | nil => rw [Plan.mergePF]
  | cons e t => rw [Plan.mergePF]

theorem Plan.mergePF_cons_cons (k1 : PKey) (f1 : Option String) (p1 : Plan) (t1 : List PEntry)
    (k2 : PKey) (f2 : Option String) (p2 : Plan) (t2 : List PEntry) :
    Plan.mergePF ((k1, f1, p1) :: t1) ((k2, f2, p2) :: t2) =
      if keyLt k1 k2 then (k1, f1, p1) :: Plan.mergePF t1 ((k2, f2, p2) :: t2)
      else if keyLt k2 k1 then (k2, f2, p2) :: Plan.mergePF ((k1, f1, p1) :: t1) t2
      else (k1, mergeFilter f1 f2, (p1.merge p2)) :: Plan.mergePF t1 t2 := by
  rw [Plan.mergePF]

mutual
theorem Plan.merge_comm : ∀ p q : Plan, p.merge q = q.merge p
  | .mk s1 pf1 o1 a1, .mk s2 pf2 o2 a2 => by
      rw [Plan.merge_mk, Plan.merge_mk, Finset.union_comm s1 s2, Finset.union_comm o1 o2,
        Bool.or_comm a1 a2, Plan.mergePF_comm pf1 pf2]

theorem Plan.mergePF_comm : ∀ l1 l2 : List PEntry, Plan.mergePF l1 l2 = Plan.mergePF l2 l1
  | [], l2 => by simp
  | e :: t, [] => by simp
  | (k1, f1, p1) :: t1, (k2, f2, p2) :: t2 => by
      rw [Plan.mergePF_cons_cons, Plan.mergePF_cons_cons]
      rcases h12 : keyLt k1 k2 with _ | _
      · rcases h21 : keyLt k2 k1 with _ | _
        · have hk : k2 = k1 := keyLt_conn h21 h12
          subst hk
          simp [Plan.mergePF_comm t1 t2, mergeFilter_comm f1 f2, Plan.merge_comm p1 p2]
        · simp [Plan.mergePF_comm ((k1, f1, p1) :: t1) t2]
      · have h21 : keyLt k2 k1 = false := keyLt_asymm h12
        simp [h21, Plan.mergePF_comm t1 ((k2, f2, p2) :: t2)]
end

mutual
theorem Plan.merge_idem : ∀ p : Plan, p.merge p = p
  | .mk s pf o a => by
      rw [Plan.merge_mk, Finset.union_self, Finset.union_self, Bool.or_self,
        Plan.mergePF_idem pf]

theorem Plan.mergePF_idem : ∀ l : List PEntry, Plan.mergePF l l = l
  | [] => by simp
  | (k, f, p) :: t => by
      rw [Plan.mergePF_cons_cons, if_neg (by simp [keyLt_irrefl]),
        if_neg (by simp [keyLt_irrefl]), mergeFilter_idem f, Plan.merge_idem p,
        Plan.mergePF_idem t]
end

@[simp] theorem Plan.merge_select (p q : Plan) : (p.merge q).select = p.select ∪ q.select := by
  cases p with
  | mk s1 pf1 o1 a1 =>
    cases q with
    | mk s2 pf2 o2 a2 => simp

@[simp] theorem Plan.merge_only (p q : Plan) : (p.merge q).only = p.only ∪ q.only := by
  cases p with
  | mk s1 pf1 o1 a1 =>
    cases q with
    | mk s2 pf2 o2 a2 => simp

@[simp] theorem Plan.merge_aborted (p q : Plan) :
    (p.merge q).aborted = (p.aborted || q.aborted) := by
  cases p with
  | mk s1 pf1 o1 a1 =>
    cases q with
    | mk s2 pf2 o2 a2 => simp

@[simp] theorem Plan.merge_prefetch (p q : Plan) :
    (p.merge q).prefetch = Plan.mergePF p.prefetch q.prefetch := by
  cases p with
  | mk s1 pf1 o1 a1 =>
    cases q with
    | mk s2 pf2 o2 a2 => simp

@[simp] theorem entryKeys_nil : entryKeys [] = ∅ := rfl

@[simp] theorem entryKeys_cons (e : PEntry) (t : List PEntry) :
    entryKeys (e :: t) = insert e.1 (entryKeys t) := by
  simp [entryKeys]

theorem Plan.mergePF_keys : ∀ l1 l2 : List PEntry,
    entryKeys (Plan.mergePF l1 l2) = entryKeys l1 ∪ entryKeys l2
  | [], l2 => by simp
  | e :: t, [] => by simp
  | (k1, f1, p1) :: t1, (k2, f2, p2) :: t2 => by
      rw [Plan.mergePF_cons_cons]
      rcases h12 : keyLt k1 k2 with _ | _
      · rcases h21 : keyLt k2 k1 with _ | _
        · have hk : k2 = k1 := keyLt_conn h21 h12
          subst hk
          rw [if_neg (by decide : ¬ (false = true)), if_neg (by decide : ¬ (false = true))]
          simp only [entryKeys_cons, Plan.mergePF_keys t1 t2]
          exact Finset.insert_union_distrib _ _ _
        · rw [if_neg (by decide : ¬ (false = true)), if_pos (rfl : true = true)]
          simp only [entryKeys_cons, Plan.mergePF_keys ((k1, f1, p1) :: t1) t2,
            Finset.union_insert]
      · rw [if_pos (rfl : true = true)]
        simp only [entryKeys_cons, Plan.mergePF_keys t1 ((k2, f2, p2) :: t2),
          Finset.insert_union]

@[simp] theorem SelectionNode.name_mk (nm a cs) : (SelectionNode.mk nm a cs).name = nm := rfl

@[simp] theorem SelectionNode.args_mk (nm a cs) : (SelectionNode.mk nm a cs).args = a := rfl

@[simp] theorem SelectionNode.children_mk (nm a cs) :
    (SelectionNode.mk nm a cs).children = cs := rfl

theorem findChild_sizeOf {nm : String} {n : SelectionNode} {c : SelectionNode}
    (h : findChild nm n = some c) : sizeOf c < sizeOf n := by
  have hmem : c ∈ n.children := List.mem_of_find?_eq_some h
  have h1 : sizeOf c < sizeOf n.children := List.sizeOf_lt_of_mem hmem
  cases n with
  | mk nm2 a cs =>
    simp only [SelectionNode.children_mk] at h1
    simp only [SelectionNode.mk.sizeOf_spec]
    omega

theorem connInner_sizeOf {n inner : SelectionNode} (h : connInner n = some inner) :
    sizeOf inner < sizeOf n := by
  unfold connInner at h
  rcases he : findChild "edges" n with _ | e
  · rw [he] at h
    exact absurd h (by simp)
  · rw [he] at h
    exact lt_trans (findChild_sizeOf h) (findChild_sizeOf he)

@[simp] theorem Query.base_mk (b s pf o) : (Query.mk b s pf o).base = b := rfl

@[simp] theorem Query.selectRelated_mk (b s pf o) :
    (Query.mk b s pf o).selectRelated = s := rfl

@[simp] theorem Query.prefetchRelated_mk (b s pf o) :
    (Query.mk b s pf o).prefetchRelated = pf := rfl

@[simp] theorem Query.onlyCols_mk (b s pf o) : (Query.mk b s pf o).onlyCols = o := rfl

/-! ## Applier equations and storage-driver primitives -/
/-- Unfolding equation of the Plan Applier on a constructor. -/
theorem applyPlan_mk (q : Query) (s pf o a) :
    applyPlan q (Plan.mk s pf o a) =
      Query.mk q.base (q.selectRelated ∪ s)
        (q.prefetchRelated ++ pf.map (fun e =>
          (e.1, applyPlan (filterBase e.2.1) e.2.2)))
        (if a = true ∨ o = ∅ then q.onlyCols else q.onlyCols ∪ o) := by
  rw [applyPlan]
  rw [List.attach_map_val pf (fun e => (e.1, applyPlan (filterBase e.2.1) e.2.2))]

@[simp] theorem applyPlan_base (q : Query) (p : Plan) : (applyPlan q p).base = q.base := by
  cases p with
  | mk s pf o a => rw [applyPlan_mk]; simp

@[simp] theorem applyPlan_selectRelated (q : Query) (p : Plan) :
    (applyPlan q p).selectRelated = q.selectRelated ∪ p.select := by
  cases p with
  | mk s pf o a => rw [applyPlan_mk]; simp

@[simp] theorem applyPlan_prefetchRelated (q : Query) (p : Plan) :
    (applyPlan q p).prefetchRelated = q.prefetchRelated ++
      p.prefetch.map (fun e => (e.1, applyPlan (filterBase e.2.1) e.2.2)) := by
  cases p with
  | mk s pf o a => rw [applyPlan_mk]; simp

@[simp] theorem applyPlan_onlyCols (q : Query) (p : Plan) :
    (applyPlan q p).onlyCols =
      if p.aborted = true ∨ p.only = ∅ then q.onlyCols else q.onlyCols ∪ p.only := by
  cases p with
  | mk s pf o a => rw [applyPlan_mk]; simp

/-- Singleton-union normalization used when evaluating concrete plans. -/
theorem singletonUnion {A : Type} [DecidableEq A] (a : A) (s : Finset A) :
    ({a} : Finset A) ∪ s = insert a s := by
  ext x
  simp [Finset.mem_union, Finset.mem_insert]

/-- Union-singleton normalization used when evaluating concrete plans. -/
theorem unionSingleton {A : Type} [DecidableEq A] (a : A) (s : Finset A) :
    s ∪ ({a} : Finset A) = insert a s := by
  ext x
  simp [Finset.mem_union, Finset.mem_insert]
  tauto

/-! ## C7: merge algebra -/
/-- C7.  Plan merging is order-independent and idempotent: for all plans
`p` and `q`, `merge p q = merge q p` and `merge p p = p`; the `select` and
`only` sets union, the prefetch key set unions (prefetch entries are keyed
by `(path, rename)`), and the `aborted` flags combine by logical OR, so a
merge never turns an aborted plan back into a non-aborted one. -/
theorem C7_merge_order_independent_idempotent (p q : Plan) :
    p.merge q = q.merge p ∧
    p.merge p = p ∧
    (p.merge q).select = p.select ∪ q.select ∧
    (p.merge q).only = p.only ∪ q.only ∧
    entryKeys (p.merge q).prefetch = entryKeys p.prefetch ∪ entryKeys q.prefetch ∧
    (p.merge q).aborted = (p.aborted || q.aborted) ∧
    (p.aborted = true → (p.merge q).aborted = true) := by
  refine ⟨Plan.merge_comm p q, Plan.merge_idem p, Plan.merge_select p q,
    Plan.merge_only p q, ?_, Plan.merge_aborted p q, ?_⟩
  · rw [Plan.merge_prefetch]
    exact Plan.mergePF_keys p.prefetch q.prefetch
  · intro h
    rw [Plan.merge_aborted, h]
    simp

/-- Witness for C7 at concrete plans: merging an aborted plan with the
empty plan stays aborted. -/
theorem C7_witness : (Plan.abortMark.merge Plan.empty).aborted = true :=
  (C7_merge_order_independent_idempotent Plan.abortMark Plan.empty).2.2.2.2.2.2 rfl

/-- C1 counterexample: on the Item schema, the rewritten query for
`{id, name, parent{id}}` is not the base query with only the
select-primitive applied for `parent`: the plan's non-empty, non-aborted
`only` set `{id, name, parent.id}` is applied as well, so the claimed
equality with `applySelect baseQuery "parent"` fails. -/
theorem C1_counterexample :
    optimize plainCfg 3 baseQuery c1tree ["Item"] =
      Except.ok (Query.mk "base" {"parent"} [] {"id", "name", "parent.id"}) ∧
    optimize plainCfg 3 baseQuery c1tree ["Item"] ≠
      Except.ok (applySelect baseQuery "parent") := by
  have hwalk : walk plainCfg 3 c1tree ["Item"] =
      Except.ok (Plan.mk {"parent"} [] {"id", "name", "parent.id"} false) := by
    simp [walk, walkFieldsAux, fieldStep, fieldTypesAux, fieldOnType, introCase, resolvesOn,
      lookupHint, idBacking, connInner, findChild, itemSchema, plainCfg, targetList, withFk,
      Plan.nestUnder, Plan.empty, Plan.abortMark, leaf, c1tree, hintContrib, Bind.bind,
      Except.bind, Finset.insert_union, Finset.union_insert, singletonUnion]
    decide
  constructor
  · rw [optimize, hwalk]
    simp only [Except.map]
    rw [applyPlan_mk]
    simp [baseQuery, applySelect]
  · rw [optimize, hwalk]
    intro h
    simp only [Except.map] at h
    rw [applyPlan_mk] at h
    simp [baseQuery, applySelect] at h

/-- C1 (amended).  For every entity type `t` whose `parent` field is a
to-one relation (and whose identity fields default to the `id` primary-key
column), the selection `{id, name, parent{id}}` produces the plan
`{select: {parent}, only: {id, name, parent.id}}` — the to-one child's
columns flatten into the parent plan's projection under the relation-path
prefix — and the rewritten query equals the base query with the
select-primitive applied for `parent` and the only-primitive applied for
`{id, name, parent.id}` (the `only` application is what the original claim
omitted). -/
theorem C1_toOne_flattening (cfg : WalkCfg) (t u : String) (dn dp : FieldDescriptor)
    (fuel : Nat)
    (hpk : cfg.schema.pk t = "id")
    (hpku : cfg.schema.pk u = "id")
    (hid : lookupHint cfg t "id" = none)
    (hidu : lookupHint cfg u "id" = none)
    (hnh : lookupHint cfg t "name" = none)
    (hph : lookupHint cfg t "parent" = none)
    (hdn : cfg.schema.describe t "name" = some dn)
    (hdnk : dn.kind = FieldKind.column)
    (hdp : cfg.schema.describe t "parent" = some dp)
    (hdpk : dp.kind = FieldKind.toOne)
    (hdpt : dp.target = some u) :
    walk cfg (fuel + 2) c1tree [t] =
      Except.ok (Plan.mk {"parent"} [] {"id", "name", "parent.id"} false) ∧
    ∀ q : Query, optimize cfg (fuel + 2) q c1tree [t] =
      Except.ok (applyOnly (applySelect q "parent") {"id", "name", "parent.id"}) := by
  obtain ⟨kn, nbn, tgn, fkn⟩ := dn
  obtain ⟨kp, nbp, tgp, fkp⟩ := dp
  simp only [FieldDescriptor.mk.injEq] at hdnk hdpk hdpt ⊢
  subst hdnk
  subst hdpk
  subst hdpt
  have hwalk : walk cfg (fuel + 2) c1tree [t] =
      Except.ok (Plan.mk {"parent"} [] {"id", "name", "parent.id"} false) := by
    simp [walk, walkFieldsAux, fieldStep, fieldTypesAux, fieldOnType, introCase, resolvesOn,
      idBacking, connInner, findChild, targetList, withFk,
      Plan.nestUnder, Plan.empty, Plan.abortMark, leaf, c1tree, hintContrib, Bind.bind,
      Except.bind, Finset.insert_union, Finset.union_insert, singletonUnion,
      hpk, hpku, hid, hidu, hnh, hph, hdn, hdp, List.filter]
    decide
  refine ⟨hwalk, fun q => ?_⟩
  rw [optimize, hwalk]
  simp only [Except.map]
  rw [applyPlan_mk]
  simp [applySelect, applyOnly, unionSingleton]

/-- Witness for C1 (amended): the Item schema of tests/models.py with no
hints satisfies every hypothesis at fuel 1. -/
theorem C1_witness :
    walk plainCfg 3 c1tree ["Item"] =
      Except.ok (Plan.mk {"parent"} [] {"id", "name", "parent.id"} false) :=
  (C1_toOne_flattening plainCfg "Item" "Item"
    (FieldDescriptor.mk FieldKind.column false none none)
    (FieldDescriptor.mk FieldKind.toOne true (some "Item") (some "parent_id")) 1
    rfl rfl rfl rfl rfl rfl rfl rfl rfl rfl rfl).1

/-- C2 counterexample: on the Item schema, the nested plan of the
`children` prefetch for `{id, children{id, name}}` is not `{only:{id,name}}`
as claimed: the walker additionally keeps the back-reference column
`parent_id` in the nested `only` (tests/test_relay.py:
prefetch_related should include parent key id in only). -/
theorem C2_counterexample :
    walk plainCfg 3 c2tree ["Item"] ≠
      Except.ok (Plan.mk ∅
        [(("children", none), none, Plan.mk ∅ [] {"id", "name"} false)]
        {"id"} false) := by
  have hwalk : walk plainCfg 3 c2tree ["Item"] =
      Except.ok (Plan.mk ∅
        [(("children", none), none, Plan.mk ∅ [] {"id", "name", "parent_id"} false)]
        {"id"} false) := by
    simp [walk, walkFieldsAux, fieldStep, fieldTypesAux, fieldOnType, introCase, resolvesOn,
      lookupHint, idBacking, connInner, findChild, itemSchema, plainCfg, targetList, withFk,
      Plan.nestUnder, Plan.empty, Plan.abortMark, leaf, c2tree, hintContrib, Bind.bind,
      Except.bind, Finset.insert_union, Finset.union_insert, singletonUnion]
    decide
  rw [hwalk]
  intro h
  have h2 := Except.ok.inj h
  have h3 := congrArg Plan.prefetch h2
  simp only [Plan.prefetch_mk] at h3
  have h4 := congrArg (fun l => l.map (fun e => e.2.2.only)) h3
  simp only [List.map, List.cons.injEq, Plan.only_mk, and_true] at h4
  exact absurd h4 (by decide)

/-- C2 (amended).  A to-many relation field always starts a new batch-fetch
boundary: its contribution has empty `select` and empty `only` (nothing
flattens into the parent plan) and consists of exactly one prefetch entry
`(relation path, nested plan)`, the nested plan being the recursive walk of
the field's children (with the back-reference column kept when the nested
plan narrows its columns).  In particular `{id, children{id, name}}` on the
Item schema yields
`{only:{id}, prefetch:{(children, nested={only:{id, name, parent_id}})}}` —
the nested `only` additionally keeps the back-reference column `parent_id`,
which the original claim omitted. -/
theorem C2_toMany_prefetch_boundary :
    (∀ (rec : SelectionNode → List String → Except String Plan) (cfg : WalkCfg)
       (f : SelectionNode) (t : String) (d : FieldDescriptor) (child : Plan),
       f.name ≠ "id" →
       lookupHint cfg t f.name = none →
       cfg.schema.describe t f.name = some d →
       d.kind = FieldKind.toMany →
       rec f (targetList d) = Except.ok child →
       fieldOnType rec cfg f t =
         Except.ok (Plan.mk ∅ [((f.name, none), none, withFk d child)] ∅ false)) ∧
    walk plainCfg 3 c2tree ["Item"] =
      Except.ok (Plan.mk ∅
        [(("children", none), none, Plan.mk ∅ [] {"id", "name", "parent_id"} false)]
        {"id"} false) := by
  constructor
  · intro rec cfg f t d child hnid hhint hdesc hkind hrec
    obtain ⟨kd, nb, tg, fk⟩ := d
    simp only at hkind
    subst hkind
    rw [fieldOnType, if_neg hnid, hhint]
    rw [introCase, hdesc]
    simp [Bind.bind, Except.bind, hrec]
  · simp [walk, walkFieldsAux, fieldStep, fieldTypesAux, fieldOnType, introCase, resolvesOn,
      lookupHint, idBacking, connInner, findChild, itemSchema, plainCfg, targetList, withFk,
      Plan.nestUnder, Plan.empty, Plan.abortMark, leaf, c2tree, hintContrib, Bind.bind,
      Except.bind, Finset.insert_union, Finset.union_insert, singletonUnion]
    decide

/-- Witness for C2 (amended): the `children` field of the Item schema with
a nested walk answering `{only:{id,name}}` produces exactly one prefetch
boundary keeping `parent_id`. -/
theorem C2_witness :
    fieldOnType (fun _ _ => Except.ok (Plan.mk ∅ [] {"id", "name"} false)) plainCfg
      (SelectionNode.mk "children" [] [leaf "id", leaf "name"]) "Item" =
      Except.ok (Plan.mk ∅
        [(("children", none), none,
          withFk (FieldDescriptor.mk FieldKind.toMany false (some "Item") (some "parent_id"))
            (Plan.mk ∅ [] {"id", "name"} false))] ∅ false) :=
  (C2_toMany_prefetch_boundary.1
    (fun _ _ => Except.ok (Plan.mk ∅ [] {"id", "name"} false)) plainCfg
    (SelectionNode.mk "children" [] [leaf "id", leaf "name"]) "Item"
    (FieldDescriptor.mk FieldKind.toMany false (some "Item") (some "parent_id"))
    (Plan.mk ∅ [] {"id", "name"} false)
    (by decide) rfl rfl rfl rfl)

/-- C5.  When a type's identity field is backed by a non-primary-key
column via a hint, a connection selection of `{id, name}` plans
`only = {backing column, name}` — containing the backing column instead of
the primary key — and optimizes the base query with exactly those columns;
with no identity hint, the identity field defaults to the primary-key
column, so `{id}` alone optimizes to only the primary-key column. -/
theorem C5_identity_backing_column :
    (∀ (cfg : WalkCfg) (t c : String) (hnt : Hint) (dn : FieldDescriptor) (fuel : Nat)
       (q : Query),
       lookupHint cfg t "id" = some hnt →
       hnt.modelField = some c →
       lookupHint cfg t "name" = none →
       cfg.schema.describe t "name" = some dn →
       dn.kind = FieldKind.column →
       c ≠ cfg.schema.pk t →
       "name" ≠ cfg.schema.pk t →
       walk cfg (fuel + 2) (connWrap [leaf "id", leaf "name"]) [t] =
         Except.ok (Plan.mk ∅ [] {c, "name"} false) ∧
       cfg.schema.pk t ∉ ({c, "name"} : Finset String) ∧
       optimize cfg (fuel + 2) q (connWrap [leaf "id", leaf "name"]) [t] =
         Except.ok (applyOnly q {c, "name"})) ∧
    (∀ (cfg : WalkCfg) (t : String) (fuel : Nat) (q : Query),
       lookupHint cfg t "id" = none →
       walk cfg (fuel + 2) (connWrap [leaf "id"]) [t] =
         Except.ok (Plan.mk ∅ [] {cfg.schema.pk t} false) ∧
       optimize cfg (fuel + 2) q (connWrap [leaf "id"]) [t] =
         Except.ok (applyOnly q {cfg.schema.pk t})) := by
  constructor
  · intro cfg t c hnt dn fuel q hid hmf hnh hdn hdnk hcpk hnpk
    obtain ⟨kn, nbn, tgn, fkn⟩ := dn
    simp only at hdnk
    subst hdnk
    have hwalk : walk cfg (fuel + 2) (connWrap [leaf "id", leaf "name"]) [t] =
        Except.ok (Plan.mk ∅ [] {c, "name"} false) := by
      simp [walk, walkFieldsAux, fieldStep, fieldTypesAux, fieldOnType, introCase,
        resolvesOn, idBacking, connInner, findChild, targetList, withFk,
        Plan.nestUnder, Plan.empty, Plan.abortMark, leaf, connWrap, hintContrib, Bind.bind,
        Except.bind, Finset.insert_union, Finset.union_insert, singletonUnion,
        hid, hmf, hnh, hdn, List.filter]
    refine ⟨hwalk, ?_, ?_⟩
    · simp [Finset.mem_insert]
      exact ⟨fun he => hcpk he.symm, fun he => hnpk he.symm⟩
    · rw [optimize, hwalk]
      simp only [Except.map]
      rw [applyPlan_mk]
      simp [applyOnly]
  · intro cfg t fuel q hid
    have hwalk : walk cfg (fuel + 2) (connWrap [leaf "id"]) [t] =
        Except.ok (Plan.mk ∅ [] {cfg.schema.pk t} false) := by
      simp [walk, walkFieldsAux, fieldStep, fieldTypesAux, fieldOnType, introCase,
        resolvesOn, idBacking, connInner, findChild, targetList, withFk,
        Plan.nestUnder, Plan.empty, Plan.abortMark, leaf, connWrap, hintContrib, Bind.bind,
        Except.bind, Finset.insert_union, Finset.union_insert, singletonUnion,
        hid, List.filter]
    refine ⟨hwalk, ?_⟩
    rw [optimize, hwalk]
    simp only [Except.map]
    rw [applyPlan_mk]
    simp [applyOnly]

/-- Witness for C5: the uuid-hinted Item configuration plans
`{uuid, name}`, and the hint-free configuration plans `{id}`. -/
theorem C5_witness :
    walk uuidCfg 3 (connWrap [leaf "id", leaf "name"]) ["Item"] =
      Except.ok (Plan.mk ∅ [] {"uuid", "name"} false) ∧
    walk plainCfg 3 (connWrap [leaf "id"]) ["Item"] =
      Except.ok (Plan.mk ∅ [] {"id"} false) :=
  ⟨(C5_identity_backing_column.1 uuidCfg "Item" "uuid"
      (Hint.mk (some "uuid") [] none none false)
      (FieldDescriptor.mk FieldKind.column false none none) 1 baseQuery
      rfl rfl rfl rfl rfl (by decide) (by decide)).1,
   (C5_identity_backing_column.2 plainCfg "Item" 1 baseQuery rfl).1⟩

/-- C6.  Requesting the same physical to-many relation twice — plain
`children` plus `filteredChildren(name: v)` backed by the dynamic hint —
produces two distinct prefetch entries with the same physical path
`children` but different `(path, rename)` keys, each carrying its own
rename, never merged into one. -/
theorem C6_same_relation_two_entries (v : String) :
    walk testCfg 3 (c6tree v) ["Item"] =
      Except.ok (Plan.mk ∅
        [(("children", none), none, Plan.mk ∅ [] {"id", "name", "parent_id"} false),
         (("children", some ("gql_filtered_children_" ++ v)), some ("name=" ++ v),
           Plan.mk ∅ [] {"id", "parent_id"} false)]
        {"id", "name"} false) ∧
    (("children", none) : PKey) ≠ ("children", some ("gql_filtered_children_" ++ v)) ∧
    [(("children", none) : PKey),
      ("children", some ("gql_filtered_children_" ++ v))].length = 2 := by
  have hk : keyLt ("children", none)
      ("children", some ("gql_filtered_children_" ++ v)) = true := by
    simp [keyLt, optLt, strLtB_irrefl]
  refine ⟨?_, by simp, rfl⟩
  simp [walk, walkFieldsAux, fieldStep, fieldTypesAux, fieldOnType, introCase, resolvesOn,
    lookupHint, idBacking, connInner, findChild, itemSchema, testCfg, filteredChildrenHint,
    targetList, withFk, Plan.nestUnder, Plan.empty, Plan.abortMark, leaf, c6tree,
    hintContrib, Bind.bind, Except.bind, Finset.insert_union, Finset.union_insert,
    singletonUnion, Plan.mergePF_cons_cons, hk, List.filter]
  decide

/-! ## C3: computed fields abort column narrowing, and aborted is safe -/
theorem fieldTypesAux_all_abortMark (rec : SelectionNode → List String → Except String Plan)
    (cfg : WalkCfg) (f : SelectionNode) :
    ∀ ts : List String, (∀ t ∈ ts, fieldOnType rec cfg f t = Except.ok Plan.abortMark) →
      ∃ r, fieldTypesAux rec cfg f ts = Except.ok r ∧ (ts ≠ [] → r.aborted = true)
  | [], _ => ⟨Plan.empty, rfl, by simp⟩
  | t :: ts, h => by
      obtain ⟨r0, hr0, _⟩ := fieldTypesAux_all_abortMark rec cfg f ts
        (fun u hu => h u (List.mem_cons_of_mem t hu))
      refine ⟨Plan.abortMark.merge r0, ?_, fun _ => ?_⟩
      · rw [fieldTypesAux]
        rw [h t (List.mem_cons_self t ts)]
        simp [Bind.bind, Except.bind, hr0]
      · rw [Plan.merge_aborted]
        simp [Plan.abortMark]

theorem walkFieldsAux_aborted (rec : SelectionNode → List String → Except String Plan)
    (cfg : WalkCfg) (types : List String) (f : SelectionNode) :
    ∀ (fs : List SelectionNode) (p : Plan),
      walkFieldsAux rec cfg types fs = Except.ok p → f ∈ fs →
      (∃ c, fieldStep rec cfg types f = Except.ok c ∧ c.aborted = true) →
      p.aborted = true
  | [], p, _, hmem, _ => absurd hmem (by simp)
  | g :: fs, p, hw, hmem, hab => by
      rw [walkFieldsAux] at hw
      rcases hg : fieldStep rec cfg types g with e | c0
      · rw [hg] at hw
        simp [Bind.bind, Except.bind] at hw
      rcases hr : walkFieldsAux rec cfg types fs with e | r0
      · rw [hg, hr] at hw
        simp [Bind.bind, Except.bind] at hw
      rw [hg, hr] at hw
      simp only [Bind.bind, Except.bind, Except.ok.injEq] at hw
      subst hw
      rcases List.mem_cons.mp hmem with heq | hmem2
      · subst heq
        obtain ⟨c, hc, hcab⟩ := hab
        rw [hg] at hc
        have : c0 = c := Except.ok.inj hc
        subst this
        rw [Plan.merge_aborted, hcab]
        simp
      · have := walkFieldsAux_aborted rec cfg types f fs r0 hr hmem2 hab
        rw [Plan.merge_aborted, this]
        simp

theorem fieldStep_computed_aborted (rec : SelectionNode → List String → Except String Plan)
    (cfg : WalkCfg) (types : List String) (f : SelectionNode)
    (hnid : f.name ≠ "id")
    (hh : ∀ t ∈ types, lookupHint cfg t f.name = none)
    (hd : ∀ t ∈ types, ∀ d, cfg.schema.describe t f.name = some d →
      d.kind = FieldKind.computed) :
    ∃ c, fieldStep rec cfg types f = Except.ok c ∧ c.aborted = true := by
  rcases hfil : types.filter (resolvesOn cfg f) with _ | ⟨t0, ts⟩
  · refine ⟨Plan.abortMark, ?_, rfl⟩
    rw [fieldStep, hfil]
  · have hall : ∀ t ∈ t0 :: ts, fieldOnType rec cfg f t = Except.ok Plan.abortMark := by
      intro t ht
      have hmem : t ∈ types.filter (resolvesOn cfg f) := by
        rw [hfil]
        exact ht
      have hmem2 : t ∈ types := List.mem_of_mem_filter hmem
      have hres : resolvesOn cfg f t = true := List.of_mem_filter hmem
      have hhint : lookupHint cfg t f.name = none := hh t hmem2
      rcases hdesc : cfg.schema.describe t f.name with _ | d
      · rw [resolvesOn, hhint, hdesc] at hres
        simp [hnid] at hres
      · have hkind := hd t hmem2 d hdesc
        rw [fieldOnType, if_neg hnid, hhint, introCase, hdesc]
        obtain ⟨kd, nb, tg, fk⟩ := d
        simp only at hkind
        subst hkind
        rfl
    obtain ⟨r, hr, hab⟩ := fieldTypesAux_all_abortMark rec cfg f (t0 :: ts) hall
    refine ⟨r, ?_, hab (by simp)⟩
    rw [fieldStep, hfil]
    exact hr

/-- C3.  A COMPUTED (or unknown) field with no hint makes the walker set
`aborted = true` on the plan of the node that requested it, and for any
plan whose `aborted` flag is true the Plan Applier never applies its
`only` set (the query's column projection is untouched) while still
applying the `select` and `prefetch` contributions of the sibling fields;
`aborted` stays true under any further merge. -/
theorem C3_computed_abort_safety (cfg : WalkCfg) (fuel : Nat) (n : SelectionNode)
    (types : List String) (f : SelectionNode) (p : Plan)
    (hconn : connInner n = none)
    (hmem : f ∈ n.children)
    (hnid : f.name ≠ "id")
    (hh : ∀ t ∈ types, lookupHint cfg t f.name = none)
    (hd : ∀ t ∈ types, ∀ d, cfg.schema.describe t f.name = some d →
      d.kind = FieldKind.computed)
    (hwalk : walk cfg (fuel + 1) n types = Except.ok p) :
    p.aborted = true ∧
    (∀ q : Query, (applyPlan q p).onlyCols = q.onlyCols ∧
      (applyPlan q p).selectRelated = q.selectRelated ∪ p.select ∧
      (applyPlan q p).prefetchRelated = q.prefetchRelated ++
        p.prefetch.map (fun e => (e.1, applyPlan (filterBase e.2.1) e.2.2))) ∧
    (∀ r : Plan, (p.merge r).aborted = true) := by
  rw [walk, hconn] at hwalk
  have hab : p.aborted = true :=
    walkFieldsAux_aborted (fun m ts => walk cfg fuel m ts) cfg types f n.children p
      hwalk hmem
      (fieldStep_computed_aborted (fun m ts => walk cfg fuel m ts) cfg types f hnid hh hd)
  refine ⟨hab, fun q => ⟨?_, applyPlan_selectRelated q p, applyPlan_prefetchRelated q p⟩,
    fun r => ?_⟩
  · rw [applyPlan_onlyCols, if_pos (Or.inl hab)]
  · rw [Plan.merge_aborted, hab]
    simp

/-- Witness for C3: on the Item schema, the selection `{id, foo}` with the
computed, hint-free resolver field `foo` (tests/schema.py resolve_foo)
yields an aborted plan whose application leaves the projection untouched. -/
theorem C3_witness :
    ∃ p, walk plainCfg 1 (SelectionNode.mk "q" [] [leaf "id", leaf "foo"]) ["Item"] =
      Except.ok p ∧ p.aborted = true ∧
      (applyPlan baseQuery p).onlyCols = baseQuery.onlyCols := by
  have hwalk : walk plainCfg 1 (SelectionNode.mk "q" [] [leaf "id", leaf "foo"]) ["Item"] =
      Except.ok ((Plan.mk ∅ [] {"id"} false).merge (Plan.abortMark.merge Plan.empty)) := by
    simp [walk, walkFieldsAux, fieldStep, fieldTypesAux, fieldOnType, introCase, resolvesOn,
      lookupHint, idBacking, connInner, findChild, itemSchema, plainCfg, targetList,
      Plan.nestUnder, Plan.empty, Plan.abortMark, leaf, hintContrib, Bind.bind,
      Except.bind, List.filter]
  obtain ⟨hab, happ, _⟩ :=
    C3_computed_abort_safety plainCfg 0 (SelectionNode.mk "q" [] [leaf "id", leaf "foo"])
      ["Item"] (leaf "foo") ((Plan.mk ∅ [] {"id"} false).merge (Plan.abortMark.merge Plan.empty))
      rfl (by simp [leaf]) (by decide)
      (by intro t ht; rfl)
      (by
        intro t ht d hd2
        simp [plainCfg, itemSchema, leaf] at hd2)
      hwalk
  exact ⟨_, hwalk, hab, (happ baseQuery).1⟩

/-! ## C9: prefetch entries keep the parent link column -/
/-- C9.  The prefetch entry minted for a to-many relation field keeps the
foreign-key/back-reference column linking each prefetched row to its
parent inside the nested plan's `only` set whenever that set is non-empty,
so the applied nested query (non-aborted, column-narrowed) still fetches
the linking column. -/
theorem C9_prefetch_keeps_parent_link
    (rec : SelectionNode → List String → Except String Plan) (cfg : WalkCfg)
    (f : SelectionNode) (t : String) (d : FieldDescriptor) (fk : String) (p : Plan)
    (hhint : lookupHint cfg t f.name = none)
    (hnid : f.name ≠ "id")
    (hdesc : cfg.schema.describe t f.name = some d)
    (hkind : d.kind = FieldKind.toMany)
    (hfk : d.fkCol = some fk)
    (hp : fieldOnType rec cfg f t = Except.ok p) :
    ∀ key flt np, (key, flt, np) ∈ p.prefetch → np.only ≠ ∅ →
      fk ∈ np.only ∧
      (np.aborted = false → fk ∈ (applyPlan (filterBase flt) np).onlyCols) := by
  intro key flt np hmem hne
  obtain ⟨kd, nb, tg, fkc⟩ := d
  simp only at hkind hfk
  subst hkind
  subst hfk
  rcases hrec : rec f (targetList (FieldDescriptor.mk FieldKind.toMany nb tg (some fk)))
    with e | child
  · rw [fieldOnType, if_neg hnid, hhint, introCase, hdesc] at hp
    simp [Bind.bind, Except.bind, hrec] at hp
  have heq : fieldOnType rec cfg f t = Except.ok (Plan.mk ∅
      [((f.name, none), none,
        withFk (FieldDescriptor.mk FieldKind.toMany nb tg (some fk)) child)] ∅ false) := by
    rw [fieldOnType, if_neg hnid, hhint, introCase, hdesc]
    simp [Bind.bind, Except.bind, hrec]
  have hpeq := Except.ok.inj (hp.symm.trans heq)
  subst hpeq
  simp only [Plan.prefetch_mk, List.mem_singleton, Prod.mk.injEq] at hmem
  obtain ⟨hk1, hk2, hnp⟩ := hmem
  subst hnp
  by_cases hco : child.only = ∅
  · rw [withFk] at hne
    simp only [if_pos hco] at hne
    exact absurd hco hne
  · rw [withFk] at hne ⊢
    simp only [if_neg hco] at hne ⊢
    refine ⟨Finset.mem_insert_self fk child.only, fun hab => ?_⟩
    rw [applyPlan_onlyCols, if_neg]
    · simp [filterBase]
    · intro hcon
      rcases hcon with hcon | hcon
      · simp only [Plan.aborted_mk] at hab
        rw [Plan.aborted_mk] at hcon
        rw [hab] at hcon
        exact Bool.false_ne_true hcon
      · rw [Plan.only_mk] at hcon
        exact Finset.insert_ne_empty fk child.only hcon

/-- Witness for C9: the concrete `children` field of the Item schema with a
column-narrowed nested walk keeps `parent_id`. -/
theorem C9_witness :
    "parent_id" ∈
      (withFk (FieldDescriptor.mk FieldKind.toMany false (some "Item") (some "parent_id"))
        (Plan.mk ∅ [] {"id"} false)).only := by
  have h := C9_prefetch_keeps_parent_link
    (fun _ _ => Except.ok (Plan.mk ∅ [] {"id"} false)) plainCfg
    (SelectionNode.mk "children" [] [leaf "id"]) "Item"
    (FieldDescriptor.mk FieldKind.toMany false (some "Item") (some "parent_id"))
    "parent_id"
    (Plan.mk ∅
      [(("children", none), none,
        withFk (FieldDescriptor.mk FieldKind.toMany false (some "Item") (some "parent_id"))
          (Plan.mk ∅ [] {"id"} false))] ∅ false)
    rfl (by decide) rfl rfl rfl
    (by
      rw [fieldOnType, if_neg (by decide), introCase]
      rfl)
    ("children", none) none
    (withFk (FieldDescriptor.mk FieldKind.toMany false (some "Item") (some "parent_id"))
      (Plan.mk ∅ [] {"id"} false))
    (by simp)
    (by rw [withFk]; simp [Finset.insert_ne_empty])
  exact h.1

/-! ## C10: the rewrite extends the caller state and never replaces it -/
/-- C10.  `optimize` returns a new query built from the caller's base
query: the opaque base (filters) is unchanged, and the caller's select
paths, projected columns and prefetch entries all survive into the result
(the rewrite only ever adds; the model is a pure function of its inputs,
so the caller's query value itself is untouched). -/
theorem C10_optimize_preserves_caller_state (cfg : WalkCfg) (fuel : Nat) (q : Query)
    (n : SelectionNode) (types : List String) (q2 : Query)
    (h : optimize cfg fuel q n types = Except.ok q2) :
    q2.base = q.base ∧
    q.selectRelated ⊆ q2.selectRelated ∧
    q.onlyCols ⊆ q2.onlyCols ∧
    ∃ ext, q2.prefetchRelated = q.prefetchRelated ++ ext := by
  rw [optimize] at h
  rcases hw : walk cfg fuel n types with e | p
  · rw [hw] at h
    simp [Except.map] at h
  rw [hw] at h
  simp only [Except.map, Except.ok.injEq] at h
  subst h
  refine ⟨applyPlan_base q p, ?_, ?_, ?_⟩
  · rw [applyPlan_selectRelated]
    exact Finset.subset_union_left
  · rw [applyPlan_onlyCols]
    by_cases hcp : p.aborted = true ∨ p.only = ∅
    · rw [if_pos hcp]
    · rw [if_neg hcp]
      exact Finset.subset_union_left
  · exact ⟨_, applyPlan_prefetchRelated q p⟩

/-- Witness for C10: optimizing with zero fuel keeps the entire caller
state of the base query. -/
theorem C10_witness :
    (applyPlan baseQuery Plan.empty).base = baseQuery.base ∧
    baseQuery.selectRelated ⊆ (applyPlan baseQuery Plan.empty).selectRelated := by
  have h := C10_optimize_preserves_caller_state plainCfg 0 baseQuery (leaf "x") ["Item"]
    (applyPlan baseQuery Plan.empty) rfl
  exact ⟨h.1, h.2.1⟩

/-! ## Walk congruence in the recursive call, and fuel irrelevance -/
theorem introCase_congr (rec1 rec2 : SelectionNode → List String → Except String Plan)
    (cfg : WalkCfg) (t nm : String) (f : SelectionNode) (hinted : Bool)
    (h : ∀ ts, rec1 f ts = rec2 f ts) :
    introCase rec1 cfg t nm f hinted = introCase rec2 cfg t nm f hinted := by
  rw [introCase, introCase]
  rcases cfg.schema.describe t nm with _ | d
  · rfl
  obtain ⟨kd, nb, tg, fk⟩ := d
  cases kd
  · rfl
  · simp only [h (targetList (FieldDescriptor.mk FieldKind.toOne nb tg fk))]
  · simp only [h (targetList (FieldDescriptor.mk FieldKind.toMany nb tg fk))]
  · rfl

theorem fieldOnType_congr (rec1 rec2 : SelectionNode → List String → Except String Plan)
    (cfg : WalkCfg) (f : SelectionNode) (t : String)
    (h : ∀ ts, rec1 f ts = rec2 f ts) :
    fieldOnType rec1 cfg f t = fieldOnType rec2 cfg f t := by
  rw [fieldOnType, fieldOnType]
  by_cases hid : f.name = "id"
  · rw [if_pos hid, if_pos hid]
  rw [if_neg hid, if_neg hid]
  rcases hl : lookupHint cfg t f.name with _ | hnt
  · exact introCase_congr rec1 rec2 cfg t f.name f false h
  simp only
  by_cases hdis : hnt.disabled = true
  · rw [if_pos hdis, if_pos hdis]
  rw [if_neg hdis, if_neg hdis]
  simp only [introCase_congr rec1 rec2 cfg t
    (match hnt.modelField with | some m => m | none => f.name) f true h]

theorem fieldTypesAux_congr (rec1 rec2 : SelectionNode → List String → Except String Plan)
    (cfg : WalkCfg) (f : SelectionNode)
    (h : ∀ ts, rec1 f ts = rec2 f ts) :
    ∀ ts : List String, fieldTypesAux rec1 cfg f ts = fieldTypesAux rec2 cfg f ts
  | [] => rfl
  | t :: ts => by
      rw [fieldTypesAux, fieldTypesAux]
      simp only [fieldOnType_congr rec1 rec2 cfg f t h,
        fieldTypesAux_congr rec1 rec2 cfg f h ts]

theorem fieldStep_congr (rec1 rec2 : SelectionNode → List String → Except String Plan)
    (cfg : WalkCfg) (types : List String) (f : SelectionNode)
    (h : ∀ ts, rec1 f ts = rec2 f ts) :
    fieldStep rec1 cfg types f = fieldStep rec2 cfg types f := by
  rw [fieldStep, fieldStep]
  rcases types.filter (resolvesOn cfg f) with _ | ⟨t, ts⟩
  · rfl
  · exact fieldTypesAux_congr rec1 rec2 cfg f h (t :: ts)

theorem walkFieldsAux_congr (rec1 rec2 : SelectionNode → List String → Except String Plan)
    (cfg : WalkCfg) (types : List String) :
    ∀ fs : List SelectionNode, (∀ g ∈ fs, ∀ ts, rec1 g ts = rec2 g ts) →
      walkFieldsAux rec1 cfg types fs = walkFieldsAux rec2 cfg types fs
  | [], _ => rfl
  | g :: fs, h => by
      rw [walkFieldsAux, walkFieldsAux]
      simp only [fieldStep_congr rec1 rec2 cfg types g (h g (List.mem_cons_self g fs)),
        walkFieldsAux_congr rec1 rec2 cfg types fs
          (fun g2 hg2 => h g2 (List.mem_cons_of_mem g hg2))]

theorem SelectionNode.sizeOf_pos (n : SelectionNode) : 1 ≤ sizeOf n := by
  cases n with
  | mk nm a cs =>
    simp only [SelectionNode.mk.sizeOf_spec]
    omega

/-- The walker's answer does not depend on the fuel, once the fuel is at
least the tree size. -/
theorem walk_fuel (n : SelectionNode) (f1 f2 : Nat) (cfg : WalkCfg) (types : List String)
    (h1 : sizeOf n ≤ f1) (h2 : sizeOf n ≤ f2) :
    walk cfg f1 n types = walk cfg f2 n types := by
  rcases f1 with _ | a
  · exact absurd (le_trans (SelectionNode.sizeOf_pos n) h1) (by simp)
  rcases f2 with _ | b
  · exact absurd (le_trans (SelectionNode.sizeOf_pos n) h2) (by simp)
  rw [walk, walk]
  rcases hc : connInner n with _ | inner
  · have hch : ∀ g ∈ n.children, ∀ ts, walk cfg a g ts = walk cfg b g ts := by
      intro g hg ts
      have hgs : sizeOf g < sizeOf n := by
        have hm : sizeOf g < sizeOf n.children := List.sizeOf_lt_of_mem hg
        cases n with
        | mk nm ar cs =>
          simp only [SelectionNode.children_mk] at hm
          simp only [SelectionNode.mk.sizeOf_spec]
          omega
      exact walk_fuel g a b cfg ts (by omega) (by omega)
    exact walkFieldsAux_congr (fun m ts => walk cfg a m ts) (fun m ts => walk cfg b m ts)
      cfg types n.children hch
  · have hs : sizeOf inner < sizeOf n := connInner_sizeOf hc
    exact walk_fuel inner a b cfg types (by omega) (by omega)
termination_by sizeOf n

/-- C4.  A connection-shaped selection (edges → node wrapping, with
metadata-only siblings such as page-info) produces exactly the plan of the
unwrapped inner node selection alone, and the optimized query is likewise
identical: the metadata siblings contribute nothing to select, prefetch or
only, and never set the aborted flag (any fuel at least the tree size). -/
theorem C4_connection_transparency (cfg : WalkCfg) (fuel : Nat) (n inner : SelectionNode)
    (types : List String) (q : Query)
    (hconn : connInner n = some inner)
    (hfuel : sizeOf n ≤ fuel) :
    walk cfg fuel n types = walk cfg fuel inner types ∧
    optimize cfg fuel q n types = optimize cfg fuel q inner types := by
  rcases fuel with _ | a
  · exact absurd (le_trans (SelectionNode.sizeOf_pos n) hfuel) (by simp)
  have hs : sizeOf inner < sizeOf n := connInner_sizeOf hconn
  have hwalk : walk cfg (a + 1) n types = walk cfg (a + 1) inner types := by
    rw [walk]
    simp only [hconn]
    exact walk_fuel inner a (a + 1) cfg types (by omega) (by omega)
  exact ⟨hwalk, by rw [optimize, optimize, hwalk]⟩

/-- Witness for C4: the relay wrapper around `{id}` with its page-info
sibling plans exactly like the bare node selection. -/
theorem C4_witness :
    walk plainCfg 100000 (connWrap [leaf "id"]) ["Item"] =
      walk plainCfg 100000 (SelectionNode.mk "node" [] [leaf "id"]) ["Item"] :=
  (C4_connection_transparency plainCfg 100000 (connWrap [leaf "id"])
    (SelectionNode.mk "node" [] [leaf "id"]) ["Item"] baseQuery rfl (by decide)).1

theorem lookupHint_mem (cfg : WalkCfg) (t fname : String) (h : Hint)
    (hl : lookupHint cfg t fname = some h) : ∃ e ∈ cfg.hints, e.2 = h := by
  rw [lookupHint] at hl
  rcases hf : cfg.hints.find? (fun e => e.1 = (t, fname)) with _ | e
  · rw [hf] at hl
    simp at hl
  · rw [hf] at hl
    simp only [Option.some.injEq] at hl
    exact ⟨e, List.mem_of_find?_eq_some hf, hl⟩

theorem hintContrib_ok (cfg : WalkCfg) (t : String) (h : Hint) (f : SelectionNode)
    (hsel : SelNoThrow h.selRel) (hpref : PrefNoThrow h.prefRel) :
    ∃ p, hintContrib cfg t h f = Except.ok p := by
  obtain ⟨mf, ao, sr, pr, dis⟩ := h
  rw [hintContrib]
  rcases sr with _ | sc
  · rcases pr with _ | pc
    · exact ⟨_, rfl⟩
    · rcases pc with p | g
      · exact ⟨_, rfl⟩
      · obtain ⟨v, hv⟩ := hpref f.args (idBacking cfg t)
        simp [Bind.bind, Except.bind, hv]
  · rcases sc with p | g
    · rcases pr with _ | pc
      · exact ⟨_, rfl⟩
      · rcases pc with p2 | g2
        · exact ⟨_, rfl⟩
        · obtain ⟨v, hv⟩ := hpref f.args (idBacking cfg t)
          simp [Bind.bind, Except.bind, hv]
    · obtain ⟨v, hv⟩ := hsel f.args (idBacking cfg t)
      rcases pr with _ | pc
      · simp [Bind.bind, Except.bind, hv]
      · rcases pc with p2 | g2
        · simp [Bind.bind, Except.bind, hv]
        · obtain ⟨v2, hv2⟩ := hpref f.args (idBacking cfg t)
          simp [Bind.bind, Except.bind, hv, hv2]

theorem introCase_ok (rec : SelectionNode → List String → Except String Plan)
    (cfg : WalkCfg) (t nm : String) (f : SelectionNode) (hinted : Bool)
    (hrec : ∀ ts, ∃ p, rec f ts = Except.ok p) :
    ∃ p, introCase rec cfg t nm f hinted = Except.ok p := by
  rw [introCase]
  rcases cfg.schema.describe t nm with _ | d
  · exact ⟨_, rfl⟩
  obtain ⟨kd, nb, tg, fk⟩ := d
  cases kd
  · exact ⟨_, rfl⟩
  · obtain ⟨c, hc⟩ := hrec (targetList (FieldDescriptor.mk FieldKind.toOne nb tg fk))
    simp [Bind.bind, Except.bind, hc]
  · obtain ⟨c, hc⟩ := hrec (targetList (FieldDescriptor.mk FieldKind.toMany nb tg fk))
    simp [Bind.bind, Except.bind, hc]
  · exact ⟨_, rfl⟩

theorem fieldOnType_ok (rec : SelectionNode → List String → Except String Plan)
    (cfg : WalkCfg) (f : SelectionNode) (t : String)
    (hreg : RegistryNoThrow cfg)
    (hrec : ∀ ts, ∃ p, rec f ts = Except.ok p) :
    ∃ p, fieldOnType rec cfg f t = Except.ok p := by
  rw [fieldOnType]
  by_cases hid : f.name = "id"
  · rw [if_pos hid]
    exact ⟨_, rfl⟩
  rw [if_neg hid]
  rcases hl : lookupHint cfg t f.name with _ | hnt
  · exact introCase_ok rec cfg t f.name f false hrec
  simp only
  obtain ⟨e, he, heq⟩ := lookupHint_mem cfg t f.name hnt hl
  obtain ⟨hsel, hpref⟩ := hreg e he
  rw [heq] at hsel hpref
  by_cases hdis : hnt.disabled = true
  · rw [if_pos hdis]
    exact ⟨_, rfl⟩
  rw [if_neg hdis]
  obtain ⟨hp, hhp⟩ := hintContrib_ok cfg t hnt f hsel hpref
  obtain ⟨ip, hip⟩ := introCase_ok rec cfg t
    (match hnt.modelField with | some m => m | none => f.name) f true hrec
  simp [Bind.bind, Except.bind, hhp, hip]

theorem fieldTypesAux_ok (rec : SelectionNode → List String → Except String Plan)
    (cfg : WalkCfg) (f : SelectionNode)
    (hreg : RegistryNoThrow cfg)
    (hrec : ∀ ts, ∃ p, rec f ts = Except.ok p) :
    ∀ ts : List String, ∃ p, fieldTypesAux rec cfg f ts = Except.ok p
  | [] => ⟨_, rfl⟩
  | t :: ts => by
      obtain ⟨c, hc⟩ := fieldOnType_ok rec cfg f t hreg hrec
      obtain ⟨r, hr⟩ := fieldTypesAux_ok rec cfg f hreg hrec ts
      rw [fieldTypesAux]
      simp [Bind.bind, Except.bind, hc, hr]

theorem fieldStep_ok (rec : SelectionNode → List String → Except String Plan)
    (cfg : WalkCfg) (types : List String) (f : SelectionNode)
    (hreg : RegistryNoThrow cfg)
    (hrec : ∀ ts, ∃ p, rec f ts = Except.ok p) :
    ∃ p, fieldStep rec cfg types f = Except.ok p := by
  rw [fieldStep]
  rcases types.filter (resolvesOn cfg f) with _ | ⟨t, ts⟩
  · exact ⟨_, rfl⟩
  · exact fieldTypesAux_ok rec cfg f hreg hrec (t :: ts)

theorem walkFieldsAux_ok (rec : SelectionNode → List String → Except String Plan)
    (cfg : WalkCfg) (types : List String)
    (hreg : RegistryNoThrow cfg) :
    ∀ fs : List SelectionNode, (∀ g ∈ fs, ∀ ts, ∃ p, rec g ts = Except.ok p) →
      ∃ p, walkFieldsAux rec cfg types fs = Except.ok p
  | [], _ => ⟨_, rfl⟩
  | g :: fs, hrec => by
      obtain ⟨c, hc⟩ := fieldStep_ok rec cfg types g hreg (hrec g (List.mem_cons_self g fs))
      obtain ⟨r, hr⟩ := walkFieldsAux_ok rec cfg types hreg fs
        (fun g2 hg2 => hrec g2 (List.mem_cons_of_mem g hg2))
      rw [walkFieldsAux]
      simp [Bind.bind, Except.bind, hc, hr]

theorem walk_noThrow (cfg : WalkCfg) (hreg : RegistryNoThrow cfg) :
    ∀ (fuel : Nat) (n : SelectionNode) (types : List String),
      ∃ p, walk cfg fuel n types = Except.ok p
  | 0, _, _ => ⟨Plan.empty, rfl⟩
  | fuel + 1, n, types => by
      rw [walk]
      rcases hc : connInner n with _ | inner
      · exact walkFieldsAux_ok (fun m ts => walk cfg fuel m ts) cfg types hreg n.children
          (fun g _ ts => walk_noThrow cfg hreg fuel g ts)
      · exact walk_noThrow cfg hreg fuel inner types

/-- C8.  The optimizer raises nothing of its own: (1) when every
registered dynamic hint function answers on every input, the walk always
returns a plan, for every tree, type list and fuel; (2) a field that has
no hint and no backing column or relation on every candidate concrete type
is treated as COMPUTED — its whole contribution is the abort mark, never
an error; (3) a field is resolved only against the concrete types on which
it resolves — types on which it is absent are silently skipped; (4) an
error raised by a caller-authored dynamic hint function propagates out of
the walk uncaught, verbatim. -/
theorem C8_no_spurious_errors :
    (∀ cfg : WalkCfg, RegistryNoThrow cfg →
      ∀ (fuel : Nat) (n : SelectionNode) (types : List String),
        ∃ p, walk cfg fuel n types = Except.ok p) ∧
    (∀ (rec : SelectionNode → List String → Except String Plan) (cfg : WalkCfg)
       (types : List String) (f : SelectionNode),
       f.name ≠ "id" →
       (∀ t ∈ types, lookupHint cfg t f.name = none ∧
         cfg.schema.describe t f.name = none) →
       fieldStep rec cfg types f = Except.ok Plan.abortMark) ∧
    (∀ (rec : SelectionNode → List String → Except String Plan) (cfg : WalkCfg)
       (types : List String) (f : SelectionNode),
       fieldStep rec cfg types f = fieldStep rec cfg (types.filter (resolvesOn cfg f)) f) ∧
    (∀ (cfg : WalkCfg) (fuel : Nat) (n f : SelectionNode) (rest : List SelectionNode)
       (types ts : List String) (t : String) (mf : Option String) (ao : List String)
       (g : List (String × String) → String →
         Except String (String × Option String × Option String × Plan)) (e : String),
       connInner n = none →
       n.children = f :: rest →
       types.filter (resolvesOn cfg f) = t :: ts →
       f.name ≠ "id" →
       lookupHint cfg t f.name = some (Hint.mk mf ao none (some (PrefContrib.fn g)) false) →
       g f.args (idBacking cfg t) = Except.error e →
       walk cfg (fuel + 1) n types = Except.error e) := by
  refine ⟨fun cfg hreg => walk_noThrow cfg hreg, ?_, ?_, ?_⟩
  · intro rec cfg types f hnid h
    rw [fieldStep]
    have hfil : types.filter (resolvesOn cfg f) = [] := by
      rw [List.filter_eq_nil_iff]
      intro t ht
      simp [resolvesOn, (h t ht).1, (h t ht).2, hnid]
    rw [hfil]
  · intro rec cfg types f
    rw [fieldStep, fieldStep]
    have hfil : (types.filter (resolvesOn cfg f)).filter (resolvesOn cfg f) =
        types.filter (resolvesOn cfg f) := by
      rw [List.filter_filter]
      simp only [Bool.and_self]
    rw [hfil]
  · intro cfg fuel n f rest types ts t mf ao g e hcn hch hfil hnid hl hg
    rw [walk]
    simp only [hcn, hch]
    rw [walkFieldsAux]
    have hstep : fieldStep (fun m ts2 => walk cfg fuel m ts2) cfg types f =
        Except.error e := by
      rw [fieldStep]
      simp only [hfil]
      rw [fieldTypesAux]
      have hone : fieldOnType (fun m ts2 => walk cfg fuel m ts2) cfg f t =
          Except.error e := by
        rw [fieldOnType, if_neg hnid]
        simp only [hl]
        rw [if_neg (by simp)]
        rw [hintContrib]
        simp [Bind.bind, Except.bind, hg]
      simp [Bind.bind, Except.bind, hone]
    simp [Bind.bind, Except.bind, hstep]

/-- Witness for C8: the hint-free Item configuration never errors on the
parent/children tree; the unknown field `foo` is abort-marked, not an
error; the skip equation holds concretely; and the always-raising hint of
`badCfg` propagates its error verbatim. -/
theorem C8_witness :
    (∃ p, walk plainCfg 3 c1tree ["Item"] = Except.ok p) ∧
    fieldStep (fun _ _ => Except.ok Plan.empty) plainCfg ["Item"] (leaf "foo") =
      Except.ok Plan.abortMark ∧
    walk badCfg 1 (SelectionNode.mk "q" [] [leaf "boom"]) ["Item"] =
      Except.error "hint failure" := by
  refine ⟨C8_no_spurious_errors.1 plainCfg ?_ 3 c1tree ["Item"],
    C8_no_spurious_errors.2.1 (fun _ _ => Except.ok Plan.empty) plainCfg ["Item"]
      (leaf "foo") (by decide) ?_,
    C8_no_spurious_errors.2.2.2 badCfg 0 (SelectionNode.mk "q" [] [leaf "boom"])
      (leaf "boom") [] ["Item"] [] "Item" none []
      (fun _ _ => Except.error "hint failure") "hint failure"
      rfl rfl (by decide) (by decide) rfl rfl⟩
  · intro ent hent
    simp [plainCfg] at hent
  · intro t ht
    simp only [List.mem_singleton] at ht
    subst ht
    exact ⟨rfl, rfl⟩
